import Mathlib

/-!
# Verification of the MARC record processor core (`src/app.py`)

Shallow embedding of the record-parsing, gap-detection and field-insertion
algorithm of the MARC processor.  Python strings are modelled as `List Char`;
the three regular expressions the code uses (`=852\s+[^$]*\$p(\d+)`,
`(=852\s+[^\n]*)` and `\$p\d+`) are fixed literal patterns and are modelled by
direct left-to-right scanners implementing exactly their matching behaviour.
Character classes `\s` and `\d` are modelled by their ASCII parts, which is the
alphabet every pattern and separator of the program lives in.

Scanning functions that advance by a variable amount use an explicit fuel
argument equal to the input length, so that every definition is structural
and computable by the kernel; fuel-adequacy lemmas below show the fuel never
runs out on the initial call.
-/

namespace Marc

/-- `String.data`, to write concrete inputs compactly. -/
def chars (s : String) : List Char := s.data

/-- Python regex `\s` (and `str.strip`'s whitespace), ASCII part. -/
def isSpace (c : Char) : Bool :=
  c = ' ' || c = '\t' || c = '\n' || c = '\r' || c = '\x0b' || c = '\x0c'

/-- The characters Python `str.splitlines` treats as line boundaries
    (`\r\n` is handled as one boundary by `splitlinesAux`). -/
def isLineBreak (c : Char) : Bool :=
  c = '\n' || c = '\r' || c = '\x0b' || c = '\x0c' || c = '\x1c' || c = '\x1d' ||
  c = '\x1e' || c = '\x85' || c = '\u2028' || c = '\u2029'

/-- Python `str.startswith pat` (first argument is the pattern). -/
def startsWith : List Char → List Char → Bool
  | [], _ => true
  | _ :: _, [] => false
  | p :: ps, c :: cs => p == c && startsWith ps cs

/-- Leading-whitespace removal (`str.lstrip`). -/
def dropLead (l : List Char) : List Char := l.dropWhile isSpace

/-- Trailing-whitespace removal (`str.rstrip`). -/
def dropTrail (l : List Char) : List Char := (l.reverse.dropWhile isSpace).reverse

/-- Python `str.strip()`. -/
def pyStrip (l : List Char) : List Char := dropTrail (dropLead l)

/-- The literal tokens of app.py: the target field header `=852`,
    the record-start marker `=LDR`, the subject tag `=653`,
    and the record separator `\n\n=LDR` used by the stats function. -/
def pat852 : List Char := ['=', '8', '5', '2']

def ldrTok : List Char := ['=', 'L', 'D', 'R']

def tag653 : List Char := ['=', '6', '5', '3']

def nnldrTok : List Char := ['\n', '\n', '=', 'L', 'D', 'R']

def nlSep : List Char := ['\n']

def nnSep : List Char := ['\n', '\n']

/-- Python `sep.join(parts)` for list-of-characters strings. -/
def joinSep (sep : List Char) : List (List Char) → List Char
  | [] => []
  | [r] => r
  | r :: rs => r ++ sep ++ joinSep sep rs

/-- Python `text.split(sep)` for a non-empty literal separator: scan left to
    right, cut at each non-overlapping occurrence of `sep`.  `k + 1` is the
    separator length (the head of the text plus `k` more characters are
    consumed at a cut); `fuel` bounds the recursion and is set to the text
    length on the initial call, which is always sufficient. -/
def pySplitAux (sep : List Char) (k : Nat) : Nat → List Char → List Char → List (List Char)
  | 0, l, acc => [acc.reverse ++ l]
  | _ + 1, [], acc => [acc.reverse]
  | fuel + 1, c :: rest, acc =>
    if startsWith sep (c :: rest) then acc.reverse :: pySplitAux sep k fuel (rest.drop k) []
    else pySplitAux sep k fuel rest (c :: acc)

def pySplit (sep l : List Char) : List (List Char) :=
  pySplitAux sep (sep.length - 1) l.length l []

/-- Value of a run of decimal digits (Python `int` on the matched group). -/
def digitsToNat (ds : List Char) : Nat :=
  ds.foldl (fun n c => 10 * n + (c.toNat - '0'.toNat)) 0

/-- Decimal digits of a number (Python f-string `f'$p{v}'`). -/
def natDigits (v : Nat) : List Char := Nat.toDigits 10 v

/-- One attempted match of `=852\s+[^$]*\$p(\d+)` anchored at the head of `l`
    (app.py line 15).  The pattern needs the literal `=852`, then at least one
    whitespace character; `\s+[^$]*` together then absorb every character up
    to the first `$`, which must start the literal `$p` followed by at least
    one digit (greedy).  On success, returns the numeric group and the
    remainder of the text after the digit run (where `finditer` resumes). -/
def tryPAt (l : List Char) : Option (Nat × List Char) :=
  if startsWith pat852 l then
    match l.drop 4 with
    | c :: rest =>
      if isSpace c then
        match rest.dropWhile (fun x => x != '$') with
        | a :: b :: tail =>
          if a = '$' && b = 'p' then
            let ds := tail.takeWhile Char.isDigit
            if ds.isEmpty then none
            else some (digitsToNat ds, tail.dropWhile Char.isDigit)
          else none
        | _ => none
      else none
    | [] => none
  else none

/-- `re.finditer` scan for `=852\s+[^$]*\$p(\d+)`: try a match at every
    position, emit the group and resume after the match on success, else
    advance one character. -/
def findPAux : Nat → List Char → List Nat
  | 0, _ => []
  | _ + 1, [] => []
  | fuel + 1, c :: rest =>
    match tryPAt (c :: rest) with
    | some (v, remaining) => v :: findPAux fuel remaining
    | none => findPAux fuel rest

/-- app.py `get_p_values`: all `$p` values of `=852` fields, sorted. -/
def get_p_values (text : List Char) : List Nat :=
  List.insertionSort (· ≤ ·) (findPAux text.length text)

/-- One attempted match of `(=852\s+[^\n]*)` anchored at the head of `l`:
    the literal `=852`, a maximal whitespace run (at least one character,
    possibly spanning newlines, since `\s` matches `\n`), then the maximal
    run of non-newline characters. -/
def tryTemplateAt (l : List Char) : Option (List Char) :=
  if startsWith pat852 l then
    match l.drop 4 with
    | c :: rest =>
      if isSpace c then
        some (pat852 ++ (c :: rest).takeWhile isSpace ++
          ((c :: rest).dropWhile isSpace).takeWhile (fun x => x != '\n'))
      else none
    | [] => none
  else none

/-- `re.search(r'(=852\s+[^\n]*)', record)`: leftmost match. -/
def searchTemplate : List Char → Option (List Char)
  | [] => none
  | c :: rest =>
    match tryTemplateAt (c :: rest) with
    | some t => some t
    | none => searchTemplate rest

/-- app.py `get_852_field_template`: first record with a match wins. -/
def get_852_field_template : List (List Char) → Option (List Char)
  | [] => none
  | r :: rs =>
    match searchTemplate r with
    | some t => some t
    | none => get_852_field_template rs

/-- Python `max` on a list of naturals; the `[]` case is unreachable under the
    guards of app.py (Python `max` would raise there). -/
def pyMaxD : List Nat → Nat
  | [] => 0
  | a :: t => t.foldl max a

/-- Python `min` on a list of naturals; `[]` unreachable under the guards. -/
def pyMinD : List Nat → Nat
  | [] => 0
  | a :: t => t.foldl min a

/-- The concatenation of every record's extracted `$p` values, in record
    order (app.py lines 28-33, `all_p_values` before dedup). -/
def batchP (records : List (List Char)) : List Nat :=
  (records.map get_p_values).flatten

/-- Python `sorted(set(l))`: the sorted list of distinct values.  Sorting
    first and removing duplicates afterwards yields the same list. -/
def pySortedSet (l : List Nat) : List Nat :=
  (List.insertionSort (· ≤ ·) l).dedup

/-- Rule A of `find_missing_852_fields` (lines 41-60): a record with no
    extracted `$p` values gets the head of the global sorted value set when it
    is first (or when no earlier record has values), else the running maximum
    of all earlier records' values plus one.  An empty result means the record
    ordinal gets no Rule-A entry in the Python dict. -/
def ruleA (records : List (List Char)) (allPSet : List Nat) (i : Nat) : List Nat :=
  if get_p_values (records.getD i []) = [] then
    if i = 0 then
      if allPSet.isEmpty then [] else [allPSet.headD 0]
    else
      if (batchP (records.take i)).isEmpty then
        if allPSet.isEmpty then [] else [allPSet.headD 0]
      else [pyMaxD (batchP (records.take i)) + 1]
  else []

/-- Rule B of `find_missing_852_fields` (lines 62-76): for a consecutive pair
    that both have values, `range(last + 1, first)` is assigned to the earlier
    record.  An empty range adds nothing, matching the `if missing:` guard. -/
def ruleB (records : List (List Char)) (i : Nat) : List Nat :=
  if i + 1 < records.length then
    match get_p_values (records.getD i []), get_p_values (records.getD (i + 1) []) with
    | p :: ps, q :: qs =>
      List.range' (pyMaxD (p :: ps) + 1) (pyMinD (q :: qs) - (pyMaxD (p :: ps) + 1))
    | _, _ => []
  else []

/-- app.py `find_missing_852_fields`, as a per-ordinal table: entry `i` is the
    ordered list of values record `i` must receive ( `[]` = no dict key).  The
    Python dict is keyed by ordinal and Rule B `extend`s Rule A's entry, which
    is exactly the per-ordinal concatenation `ruleA ++ ruleB`. -/
def find_missing_852_fields (records : List (List Char)) : List (List Nat) :=
  if batchP records = [] then records.map fun _ => []
  else
    (List.range records.length).map fun i =>
      ruleA records (pySortedSet (batchP records)) i ++ ruleB records i

/-- Python `str.splitlines` (no trailing empty line; `\r\n` is one boundary). -/
def splitlinesAux : List Char → List Char → List (List Char)
  | [], acc => if acc.isEmpty then [] else [acc.reverse]
  | [c], acc =>
    if isLineBreak c then acc.reverse :: splitlinesAux [] []
    else splitlinesAux [] (c :: acc)
  | c :: c2 :: rest2, acc =>
    if c = '\r' then
      if c2 = '\n' then acc.reverse :: splitlinesAux rest2 []
      else acc.reverse :: splitlinesAux (c2 :: rest2) []
    else if isLineBreak c then acc.reverse :: splitlinesAux (c2 :: rest2) []
    else splitlinesAux (c2 :: rest2) (c :: acc)

def splitlines (l : List Char) : List (List Char) := splitlinesAux l []

/-- The insertion-point loop of `add_missing_852_fields` (lines 88-96):
    `i` is the current line index, `idx` the insertion index so far
    (initially the number of lines). -/
def insertIdxAux : List (List Char) → Nat → Nat → Nat
  | [], _, idx => idx
  | line :: rest, i, idx =>
    if startsWith tag653 line then insertIdxAux rest (i + 1) (i + 1)
    else if startsWith ldrTok line && i != 0 then i
    else insertIdxAux rest (i + 1) idx

/-- `re.sub(r'\$p\d+', f'$p{v}', l)`: replace every non-overlapping
    occurrence of `$p` followed by a maximal digit run. -/
def subPAux (v : Nat) : Nat → List Char → List Char
  | 0, l => l
  | _ + 1, [] => []
  | fuel + 1, c :: rest =>
    if c = '$' then
      match rest with
      | p :: d :: tail =>
        if p = 'p' && d.isDigit then
          '$' :: 'p' :: natDigits v ++ subPAux v fuel ((d :: tail).dropWhile Char.isDigit)
        else c :: subPAux v fuel rest
      | _ => c :: subPAux v fuel rest
    else c :: subPAux v fuel rest

def subP (v : Nat) (l : List Char) : List Char := subPAux v l.length l

/-- app.py `add_missing_852_fields`. -/
def add_missing_852_fields (record : List Char) (missing : List Nat) (tmpl : List Char) : List Char :=
  if missing.isEmpty || tmpl.isEmpty then record
  else
    joinSep nlSep
      ((splitlines record).take (insertIdxAux (splitlines record) 0 (splitlines record).length) ++
        missing.map (fun v => subP v tmpl) ++
        (splitlines record).drop (insertIdxAux (splitlines record) 0 (splitlines record).length))

/-- The record-builder of `process_marc_records` (lines 113-121): the first
    chunk is kept stripped when non-blank; every later non-blank chunk gets
    the `=LDR` marker re-prepended, unstripped. -/
def buildRecords (parts : List (List Char)) : List (List Char) :=
  match parts with
  | [] => []
  | p0 :: rest =>
    (if (pyStrip p0).isEmpty then [] else [pyStrip p0]) ++
      rest.filterMap fun p => if (pyStrip p).isEmpty then none else some (ldrTok ++ p)

/-- app.py `process_marc_records`: the core entry point.  Mutating
    `records[record_index]` for each key of the missing-fields dict and then
    joining is the same as zipping records with the per-ordinal table, since
    `add_missing_852_fields` is the identity on an empty value list. -/
def process_marc_records (input : List Char) : List Char :=
  if (buildRecords (pySplit ldrTok (pyStrip input))).isEmpty then input
  else
    match get_852_field_template (buildRecords (pySplit ldrTok (pyStrip input))) with
    | none => input
    | some tmpl =>
      joinSep nnSep
        (List.zipWith (fun r m => add_missing_852_fields r m tmpl)
          (buildRecords (pySplit ldrTok (pyStrip input)))
          (find_missing_852_fields (buildRecords (pySplit ldrTok (pyStrip input)))))

/-- `len(re.findall(r'=852', text))`: left-to-right non-overlapping count. -/
def count852Aux : Nat → List Char → Nat
  | 0, _ => 0
  | _ + 1, [] => 0
  | fuel + 1, c :: rest =>
    if startsWith pat852 (c :: rest) then 1 + count852Aux fuel (rest.drop 3)
    else count852Aux fuel rest

def count852 (l : List Char) : Nat := count852Aux l.length l

structure ProcStats where
  originalRecords : Nat
  processedRecords : Nat
  original852 : Nat
  processed852 : Nat
  addedFields : Int

/-- app.py `get_processing_stats`. -/
def get_processing_stats (original processed : List Char) : ProcStats :=
  { originalRecords :=
      ((pySplit nnldrTok original).filter fun r => !(pyStrip r).isEmpty).length
    processedRecords :=
      ((pySplit nnldrTok processed).filter fun r => !(pyStrip r).isEmpty).length
    original852 := count852 original
    processed852 := count852 processed
    addedFields := (count852 processed : Int) - (count852 original : Int) }

/-! ### Exception-aware variant

The only operations of the core that can raise in Python are `all_p_values[0]`
and `max(prev_records_p_values)` inside `find_missing_852_fields`; both are
guarded by non-emptiness tests.  The checked variant returns `none` exactly
where Python would raise, so `processChecked x = some (process_marc_records x)`
states that `process` never throws. -/

/-- Python `l[0]`: raises `IndexError` on an empty list. -/
def pyHead? (l : List Nat) : Option Nat := l.head?

/-- Python `max(l)`: raises `ValueError` on an empty list. -/
def pyMax? : List Nat → Option Nat
  | [] => none
  | a :: t => some (t.foldl max a)

def ruleAChecked (records : List (List Char)) (allPSet : List Nat) (i : Nat) : Option (List Nat) :=
  if get_p_values (records.getD i []) = [] then
    if i = 0 then
      if allPSet.isEmpty then some []
      else (pyHead? allPSet).map fun v => [v]
    else
      if (batchP (records.take i)).isEmpty then
        if allPSet.isEmpty then some []
        else (pyHead? allPSet).map fun v => [v]
      else (pyMax? (batchP (records.take i))).map fun m => [m + 1]
  else some []

def find_missing_852_checked (records : List (List Char)) : Option (List (List Nat)) :=
  if batchP records = [] then some (records.map fun _ => [])
  else
    (List.range records.length).mapM fun i =>
      (ruleAChecked records (pySortedSet (batchP records)) i).map fun a =>
        a ++ ruleB records i

def processChecked (input : List Char) : Option (List Char) :=
  if (buildRecords (pySplit ldrTok (pyStrip input))).isEmpty then some input
  else
    match get_852_field_template (buildRecords (pySplit ldrTok (pyStrip input))) with
    | none => some input
    | some tmpl =>
      (find_missing_852_checked (buildRecords (pySplit ldrTok (pyStrip input)))).map fun missing =>
        joinSep nnSep
          (List.zipWith (fun r m => add_missing_852_fields r m tmpl)
            (buildRecords (pySplit ldrTok (pyStrip input))) missing)

/-! ### Specification-side definitions

Used only to state claims: the per-position occurrence count of `=852`
(equal to the scan count, proved below), and the insertion-point policy in
the words of the specification (§4.4). -/

/-- Number of positions of `l` where the literal `=852` occurs.  Because
    `=852` cannot overlap itself, this equals `count852`. -/
def posCount : List Char → Nat
  | [] => 0
  | c :: rest => (if startsWith pat852 (c :: rest) then 1 else 0) + posCount rest

/-- Index of the first line satisfying `p`, if any. -/
def firstIdx (p : List Char → Bool) : List (List Char) → Option Nat
  | [] => none
  | l :: ls => if p l then some 0 else (firstIdx p ls).map (· + 1)

/-- Index of the last line starting with `=653`, if any. -/
def last653 : List (List Char) → Option Nat
  | [] => none
  | l :: rest =>
    match last653 rest with
    | some k => some (k + 1)
    | none => if startsWith tag653 l then some 0 else none

/-- The insertion-point policy in the specification's words (§4.4): insert
    before the first line at index `> 0` that begins with the record-start
    marker; otherwise immediately after the last line beginning with the
    subject-heading tag; otherwise at end-of-record. -/
def specInsertIdx (lines : List (List Char)) : Nat :=
  match firstIdx (fun line => startsWith ldrTok line) (lines.drop 1) with
  | some d => d + 1
  | none =>
    match last653 lines with
    | some k => k + 1
    | none => lines.length

/-! ## Helper lemmas -/

theorem startsWith_iff : ∀ (pat l : List Char), startsWith pat l = true ↔ ∃ t, l = pat ++ t
  | [], l => by simp [startsWith]
  | _ :: _, [] => by simp [startsWith]
  | p :: ps, c :: cs => by
    rw [startsWith]
    simp only [Bool.and_eq_true, beq_iff_eq, List.cons_append]
    constructor
    · rintro ⟨rfl, h⟩
      obtain ⟨t, rfl⟩ := (startsWith_iff ps cs).1 h
      exact ⟨t, rfl⟩
    · rintro ⟨t, ht⟩
      injection ht with h1 h2
      exact ⟨h1.symm, (startsWith_iff ps cs).2 ⟨t, h2⟩⟩

theorem startsWith_append {pat a : List Char} (b : List Char)
    (h : startsWith pat a = true) : startsWith pat (a ++ b) = true := by
  obtain ⟨t, rfl⟩ := (startsWith_iff pat a).1 h
  exact (startsWith_iff pat _).2 ⟨t ++ b, by simp⟩

theorem isSpace_ne {c : Char} (h : isSpace c = true) :
    c ≠ '=' ∧ c ≠ '8' ∧ c ≠ '5' ∧ c ≠ '2' := by
  refine ⟨?_, ?_, ?_, ?_⟩ <;> rintro rfl <;> simp [isSpace] at h

theorem isLineBreak_ne {c : Char} (h : isLineBreak c = true) :
    c ≠ '=' ∧ c ≠ '8' ∧ c ≠ '5' ∧ c ≠ '2' := by
  refine ⟨?_, ?_, ?_, ?_⟩ <;> rintro rfl <;> simp [isLineBreak] at h

theorem posCount_cons_ne {c : Char} (rest : List Char) (h : c ≠ '=') :
    posCount (c :: rest) = posCount rest := by
  have hsw : startsWith pat852 (c :: rest) = false := by
    rw [show pat852 = '=' :: ['8', '5', '2'] from rfl, startsWith]
    have h2 : ('=' == c) = false := beq_eq_false_iff_ne.2 fun he => h he.symm
    simp [h2]
  simp [posCount, hsw]

theorem posCount_append_ge (a b : List Char) :
    posCount a + posCount b ≤ posCount (a ++ b) := by
  induction a with
  | nil => simp [posCount]
  | cons c a ih =>
    rw [List.cons_append]
    simp only [posCount]
    by_cases hc : startsWith pat852 (c :: a) = true
    · have h2 : startsWith pat852 (c :: (a ++ b)) = true := by
        rw [← List.cons_append]; exact startsWith_append b hc
      rw [if_pos hc, if_pos h2]
      omega
    · rw [if_neg hc]
      by_cases h2 : startsWith pat852 (c :: (a ++ b)) = true
      · rw [if_pos h2]; omega
      · rw [if_neg h2]; omega

/-- When `b` does not begin with `'8'`, `'5'` or `'2'`, no occurrence of
    `=852` straddles the boundary between `a` and `b`. -/
theorem posCount_append_eq (a b : List Char)
    (hb : ∀ c, b.head? = some c → c ≠ '8' ∧ c ≠ '5' ∧ c ≠ '2') :
    posCount (a ++ b) = posCount a + posCount b := by
  induction a with
  | nil => simp [posCount]
  | cons c a ih =>
    rw [List.cons_append]
    simp only [posCount]
    have key : startsWith pat852 (c :: (a ++ b)) = startsWith pat852 (c :: a) := by
      cases hx : startsWith pat852 (c :: a) with
      | true =>
        rw [← List.cons_append]; exact startsWith_append b hx
      | false =>
        cases hy : startsWith pat852 (c :: (a ++ b)) with
        | false => rfl
        | true =>
          exfalso
          obtain ⟨t, ht⟩ := (startsWith_iff _ _).1 hy
          rw [show pat852 = ['=', '8', '5', '2'] from rfl] at ht
          match a, ht with
          | [], ht =>
            simp only [List.nil_append, List.cons_append, List.cons.injEq] at ht
            exact (hb '8' (by rw [ht.2]; rfl)).1 rfl
          | [a1], ht =>
            simp only [List.cons_append, List.nil_append, List.cons.injEq] at ht
            exact (hb '5' (by rw [ht.2.2]; rfl)).2.1 rfl
          | [a1, a2], ht =>
            simp only [List.cons_append, List.nil_append, List.cons.injEq] at ht
            exact (hb '2' (by rw [ht.2.2.2]; rfl)).2.2 rfl
          | a1 :: a2 :: a3 :: a', ht =>
            simp only [List.cons_append, List.cons.injEq] at ht
            obtain ⟨rfl, rfl, rfl, rfl, -⟩ := ht
            simp [startsWith, pat852] at hx
    rw [key, ih]
    omega

theorem posCount_all_space {l : List Char} (h : ∀ c ∈ l, isSpace c = true) :
    posCount l = 0 := by
  induction l with
  | nil => rfl
  | cons c rest ih =>
    rw [posCount_cons_ne rest (isSpace_ne (h c (by simp))).1]
    exact ih fun x hx => h x (by simp [hx])

theorem posCount_ws_append {a : List Char} (b : List Char)
    (h : ∀ c ∈ a, isSpace c = true) : posCount (a ++ b) = posCount b := by
  induction a with
  | nil => rfl
  | cons c a ih =>
    rw [List.cons_append, posCount_cons_ne _ (isSpace_ne (h c (by simp))).1]
    exact ih fun x hx => h x (by simp [hx])

theorem posCount_append_ws (a : List Char) {b : List Char}
    (h : ∀ c ∈ b, isSpace c = true) : posCount (a ++ b) = posCount a := by
  rw [posCount_append_eq a b, posCount_all_space h]
  · omega
  · intro c hc
    cases b with
    | nil => simp at hc
    | cons b0 bs =>
      have hb0 : b0 = c := by simpa using hc
      rw [← hb0]
      exact (isSpace_ne (h b0 (by simp))).2

/-- `l` decomposes as leading whitespace, `pyStrip l`, trailing whitespace. -/
theorem exists_strip_decomp (l : List Char) :
    ∃ u v, l = u ++ pyStrip l ++ v ∧ (∀ c ∈ u, isSpace c = true) ∧
      (∀ c ∈ v, isSpace c = true) := by
  refine ⟨l.takeWhile isSpace, ((dropLead l).reverse.takeWhile isSpace).reverse, ?_, ?_, ?_⟩
  · have hA : l.takeWhile isSpace ++ dropLead l = l := by simp [dropLead]
    have hB0 : (dropLead l).reverse.takeWhile isSpace ++ (dropLead l).reverse.dropWhile isSpace
        = (dropLead l).reverse := by simp
    have h3 := congrArg List.reverse hB0
    rw [List.reverse_append, List.reverse_reverse] at h3
    have hB : dropLead l = pyStrip l ++ ((dropLead l).reverse.takeWhile isSpace).reverse :=
      h3.symm
    conv_lhs => rw [← hA, hB]
    rw [List.append_assoc]
  · exact fun c hc => List.mem_takeWhile_imp hc
  · intro c hc
    rw [List.mem_reverse] at hc
    exact List.mem_takeWhile_imp hc

theorem posCount_pyStrip (l : List Char) : posCount (pyStrip l) = posCount l := by
  obtain ⟨u, v, hl, hu, hv⟩ := exists_strip_decomp l
  conv_rhs => rw [hl]
  rw [List.append_assoc, posCount_ws_append _ hu, posCount_append_ws _ hv]

theorem posCount_ldr (p : List Char) : posCount (ldrTok ++ p) = posCount p := by
  show posCount ('=' :: 'L' :: 'D' :: 'R' :: p) = posCount p
  have h1 : startsWith pat852 ('=' :: 'L' :: 'D' :: 'R' :: p) = false := by
    simp [startsWith, pat852]
  rw [posCount, h1, if_neg (by simp), posCount_cons_ne _ (by decide),
    posCount_cons_ne _ (by decide), posCount_cons_ne _ (by decide)]
  omega

/-! ## Splitting and joining -/

theorem pySplitAux_ne_nil (sep : List Char) (k : Nat) :
    ∀ (fuel : Nat) (l acc : List Char), pySplitAux sep k fuel l acc ≠ []
  | 0, l, acc => by simp [pySplitAux]
  | _ + 1, [], acc => by simp [pySplitAux]
  | fuel + 1, c :: rest, acc => by
    simp only [pySplitAux]
    split
    · simp
    · exact pySplitAux_ne_nil sep k fuel rest (c :: acc)

theorem joinSep_cons (sep r : List Char) (rs : List (List Char)) (h : rs ≠ []) :
    joinSep sep (r :: rs) = r ++ sep ++ joinSep sep rs := by
  cases rs with
  | nil => exact absurd rfl h
  | cons r2 rs2 => rfl

/-- Splitting on a literal separator and rejoining reconstructs the text. -/
theorem joinSep_pySplitAux (sep : List Char) (hsep : sep ≠ []) :
    ∀ (fuel : Nat) (l acc : List Char),
      joinSep sep (pySplitAux sep (sep.length - 1) fuel l acc) = acc.reverse ++ l
  | 0, l, acc => by simp [pySplitAux, joinSep]
  | _ + 1, [], acc => by simp [pySplitAux, joinSep]
  | fuel + 1, c :: rest, acc => by
    simp only [pySplitAux]
    by_cases hs : startsWith sep (c :: rest) = true
    · rw [if_pos hs]
      obtain ⟨t, ht⟩ := (startsWith_iff _ _).1 hs
      rw [joinSep_cons _ _ _ (pySplitAux_ne_nil sep (sep.length - 1) fuel _ []),
        joinSep_pySplitAux sep hsep fuel _ []]
      cases sep with
      | nil => exact absurd rfl hsep
      | cons s0 s' =>
        injection ht with h1 h2
        rw [h2, h1]
        simp only [List.length_cons, Nat.add_sub_cancel, List.drop_left, List.reverse_nil,
          List.nil_append]
        simp [List.append_assoc]
    · rw [if_neg hs, joinSep_pySplitAux sep hsep fuel rest (c :: acc)]
      simp

theorem joinSep_pySplit (sep l : List Char) (hsep : sep ≠ []) :
    joinSep sep (pySplit sep l) = l := by
  simpa using joinSep_pySplitAux sep hsep l.length l []

/-- Every chunk produced by the splitter occurs inside the original text. -/
theorem pySplitAux_mem_decomp (sep : List Char) (k : Nat) :
    ∀ (fuel : Nat) (l acc p : List Char), p ∈ pySplitAux sep k fuel l acc →
      ∃ u v, acc.reverse ++ l = u ++ p ++ v
  | 0, l, acc, p, hp => by
    simp [pySplitAux] at hp
    exact ⟨[], [], by simp [hp]⟩
  | _ + 1, [], acc, p, hp => by
    simp [pySplitAux] at hp
    exact ⟨[], [], by simp [hp]⟩
  | fuel + 1, c :: rest, acc, p, hp => by
    simp only [pySplitAux] at hp
    by_cases hs : startsWith sep (c :: rest) = true
    · rw [if_pos hs] at hp
      rcases List.mem_cons.1 hp with h | h
      · exact ⟨[], c :: rest, by simp [h]⟩
      · obtain ⟨u, v, huv⟩ := pySplitAux_mem_decomp sep k fuel (rest.drop k) [] p h
        simp only [List.reverse_nil, List.nil_append] at huv
        refine ⟨acc.reverse ++ c :: rest.take k ++ u, v, ?_⟩
        conv_lhs => rw [show rest = rest.take k ++ rest.drop k from
          (List.take_append_drop k rest).symm]
        rw [huv]
        simp [List.append_assoc]
    · rw [if_neg hs] at hp
      obtain ⟨u, v, huv⟩ := pySplitAux_mem_decomp sep k fuel rest (c :: acc) p hp
      exact ⟨u, v, by simpa using huv⟩

theorem pySplit_mem_decomp {sep l p : List Char} (hp : p ∈ pySplit sep l) :
    ∃ u v, l = u ++ p ++ v := by
  have := pySplitAux_mem_decomp sep (sep.length - 1) l.length l [] p hp
  simpa using this

/-! ## Minimum and maximum -/

theorem foldl_min_le (t : List Nat) (a : Nat) :
    t.foldl min a ≤ a ∧ ∀ x ∈ t, t.foldl min a ≤ x := by
  induction t generalizing a with
  | nil => simp
  | cons b t ih =>
    rw [List.foldl_cons]
    obtain ⟨h1, h2⟩ := ih (min a b)
    refine ⟨le_trans h1 (min_le_left a b), ?_⟩
    intro x hx
    rcases List.mem_cons.1 hx with rfl | hx
    · exact le_trans h1 (min_le_right a _)
    · exact h2 x hx

theorem foldl_min_choice : ∀ (t : List Nat) (a : Nat),
    t.foldl min a = a ∨ t.foldl min a ∈ t
  | [], _ => Or.inl rfl
  | b :: t, a => by
    rw [List.foldl_cons]
    rcases foldl_min_choice t (min a b) with h | h
    · rw [h]
      rcases Nat.le_total a b with hab | hab
      · exact Or.inl (by omega)
      · right
        rw [show min a b = b by omega]
        exact List.mem_cons_self b t
    · exact Or.inr (List.mem_cons_of_mem b h)

theorem foldl_max_ge (t : List Nat) (a : Nat) :
    a ≤ t.foldl max a ∧ ∀ x ∈ t, x ≤ t.foldl max a := by
  induction t generalizing a with
  | nil => simp
  | cons b t ih =>
    rw [List.foldl_cons]
    obtain ⟨h1, h2⟩ := ih (max a b)
    refine ⟨le_trans (Nat.le_max_left a b) h1, ?_⟩
    intro x hx
    rcases List.mem_cons.1 hx with rfl | hx
    · exact le_trans (Nat.le_max_right a _) h1
    · exact h2 x hx

theorem foldl_max_choice : ∀ (t : List Nat) (a : Nat),
    t.foldl max a = a ∨ t.foldl max a ∈ t
  | [], _ => Or.inl rfl
  | b :: t, a => by
    rw [List.foldl_cons]
    rcases foldl_max_choice t (max a b) with h | h
    · rw [h]
      rcases Nat.le_total a b with hab | hab
      · right
        rw [show max a b = b by omega]
        exact List.mem_cons_self b t
      · exact Or.inl (by omega)
    · exact Or.inr (List.mem_cons_of_mem b h)

/-- `pyMinD` is a lower bound of the list. -/
theorem pyMinD_le {l : List Nat} {x : Nat} (hx : x ∈ l) : pyMinD l ≤ x := by
  cases l with
  | nil => simp at hx
  | cons a t =>
    simp only [pyMinD]
    rcases List.mem_cons.1 hx with rfl | hx
    · exact (foldl_min_le t x).1
    · exact (foldl_min_le t a).2 x hx

/-- `pyMinD` of a non-empty list is an element, hence its minimum. -/
theorem pyMinD_mem {l : List Nat} (h : l ≠ []) : pyMinD l ∈ l := by
  cases l with
  | nil => exact absurd rfl h
  | cons a t =>
    simp only [pyMinD]
    rcases foldl_min_choice t a with h2 | h2
    · rw [h2]; exact List.mem_cons_self a t
    · exact List.mem_cons_of_mem a h2

/-- `pyMaxD` is an upper bound of the list. -/
theorem le_pyMaxD {l : List Nat} {x : Nat} (hx : x ∈ l) : x ≤ pyMaxD l := by
  cases l with
  | nil => simp at hx
  | cons a t =>
    simp only [pyMaxD]
    rcases List.mem_cons.1 hx with rfl | hx
    · exact (foldl_max_ge t x).1
    · exact (foldl_max_ge t a).2 x hx

/-- `pyMaxD` of a non-empty list is an element, hence its maximum. -/
theorem pyMaxD_mem {l : List Nat} (h : l ≠ []) : pyMaxD l ∈ l := by
  cases l with
  | nil => exact absurd rfl h
  | cons a t =>
    simp only [pyMaxD]
    rcases foldl_max_choice t a with h2 | h2
    · rw [h2]; exact List.mem_cons_self a t
    · exact List.mem_cons_of_mem a h2

/-! ## The sorted value set -/

theorem pySortedSet_sorted (l : List Nat) : (pySortedSet l).Sorted (· ≤ ·) :=
  List.Pairwise.sublist (List.dedup_sublist _) (List.sorted_insertionSort _ l)

theorem mem_pySortedSet {l : List Nat} {x : Nat} : x ∈ pySortedSet l ↔ x ∈ l := by
  rw [pySortedSet, List.mem_dedup]
  exact (List.perm_insertionSort _ l).mem_iff

/-- The head of `sorted(set(l))` is the least element of `l`. -/
theorem pySortedSet_head (l : List Nat) (h : l ≠ []) :
    ∃ t, pySortedSet l = pyMinD l :: t := by
  have hmem : pyMinD l ∈ pySortedSet l := mem_pySortedSet.2 (pyMinD_mem h)
  cases hs : pySortedSet l with
  | nil => rw [hs] at hmem; simp at hmem
  | cons v t =>
    refine ⟨t, ?_⟩
    have hvl : v ∈ l := mem_pySortedSet.1 (hs ▸ List.mem_cons_self v t)
    have hsorted := pySortedSet_sorted l
    rw [hs] at hsorted
    have hvle : ∀ x ∈ t, v ≤ x := fun x hx => (List.pairwise_cons.1 hsorted).1 x hx
    have h1 : pyMinD l ≤ v := pyMinD_le hvl
    have h2 : v ≤ pyMinD l := by
      rw [hs] at hmem
      rcases List.mem_cons.1 hmem with he | ht
      · omega
      · exact hvle _ ht
    rw [show v = pyMinD l from le_antisymm h2 h1]

/-! ## Field counting -/

/-- `=852` cannot overlap itself, so the non-overlapping scan count equals
    the per-position occurrence count. -/
theorem count852Aux_eq_posCount : ∀ (fuel : Nat) (l : List Char), l.length ≤ fuel →
    count852Aux fuel l = posCount l
  | 0, l, h => by
    rw [List.length_eq_zero.1 (Nat.le_zero.1 h)]
    rfl
  | _ + 1, [], _ => rfl
  | fuel + 1, c :: rest, h => by
    simp only [count852Aux]
    by_cases hs : startsWith pat852 (c :: rest) = true
    · rw [if_pos hs]
      obtain ⟨t, ht⟩ := (startsWith_iff _ _).1 hs
      rw [show pat852 = ['=', '8', '5', '2'] from rfl] at ht
      injection ht with h1 h2
      subst h1
      simp only [List.append_eq, List.cons_append, List.nil_append] at h2
      rw [h2]
      have hlen : t.length ≤ fuel := by
        rw [h2] at h
        simp only [List.length_cons] at h
        omega
      have hsw : startsWith pat852 ('=' :: '8' :: '5' :: '2' :: t) = true := by
        simp [startsWith, pat852]
      rw [show ('8' :: '5' :: '2' :: t).drop 3 = t from rfl,
        count852Aux_eq_posCount fuel t hlen, posCount, if_pos hsw,
        posCount_cons_ne _ (by decide), posCount_cons_ne _ (by decide),
        posCount_cons_ne _ (by decide)]
    · rw [if_neg hs]
      have hlen : rest.length ≤ fuel := by
        simp only [List.length_cons] at h
        omega
      rw [count852Aux_eq_posCount fuel rest hlen, posCount, if_neg hs]
      omega

theorem count852_eq_posCount (l : List Char) : count852 l = posCount l :=
  count852Aux_eq_posCount l.length l le_rfl

theorem posCount_append_break (a : List Char) {c : Char} (rest : List Char)
    (hc : c ≠ '=' ∧ c ≠ '8' ∧ c ≠ '5' ∧ c ≠ '2') :
    posCount (a ++ c :: rest) = posCount a + posCount rest := by
  rw [posCount_append_eq a (c :: rest) ?hb, posCount_cons_ne rest hc.1]
  case hb =>
    intro x hx
    have hxc : c = x := by simpa using hx
    rw [← hxc]
    exact hc.2

/-- Splitting a text into lines neither loses nor creates `=852`
    occurrences: the pattern contains no line-break character. -/
theorem sum_posCount_splitlinesAux : ∀ (l acc : List Char),
    ((splitlinesAux l acc).map posCount).sum = posCount (acc.reverse ++ l)
  | [], acc => by
    simp only [splitlinesAux]
    by_cases ha : acc.isEmpty = true
    · rw [if_pos ha, List.isEmpty_iff.1 ha]
      rfl
    · rw [if_neg ha]
      simp
  | [c], acc => by
    simp only [splitlinesAux]
    by_cases hb : isLineBreak c = true
    · rw [if_pos hb, posCount_append_break acc.reverse [] (isLineBreak_ne hb)]
      simp [posCount]
    · rw [if_neg hb]
      simp [List.reverse_cons]
  | c :: c2 :: rest2, acc => by
    simp only [splitlinesAux]
    by_cases hr : c = '\r'
    · rw [if_pos hr]
      subst hr
      by_cases h2 : c2 = '\n'
      · rw [if_pos h2]
        subst h2
        simp only [List.map_cons, List.sum_cons, sum_posCount_splitlinesAux rest2 []]
        rw [posCount_append_break acc.reverse ('\n' :: rest2)
          (by refine ⟨?_, ?_, ?_, ?_⟩ <;> decide)]
        rw [posCount_cons_ne rest2 (by decide)]
        simp
      · rw [if_neg h2]
        simp only [List.map_cons, List.sum_cons, sum_posCount_splitlinesAux (c2 :: rest2) []]
        rw [posCount_append_break acc.reverse (c2 :: rest2)
          (by refine ⟨?_, ?_, ?_, ?_⟩ <;> decide)]
        simp
    · rw [if_neg hr]
      by_cases hb : isLineBreak c = true
      · rw [if_pos hb]
        simp only [List.map_cons, List.sum_cons, sum_posCount_splitlinesAux (c2 :: rest2) []]
        rw [posCount_append_break acc.reverse (c2 :: rest2) (isLineBreak_ne hb)]
        simp
      · rw [if_neg hb]
        rw [sum_posCount_splitlinesAux (c2 :: rest2) (c :: acc)]
        simp [List.append_assoc]

theorem sum_posCount_splitlines (l : List Char) :
    ((splitlines l).map posCount).sum = posCount l := by
  simpa using sum_posCount_splitlinesAux l []

/-- Joining line lists never loses occurrences lying inside the lines. -/
theorem sum_posCount_le_joinSep (sep : List Char) : ∀ (rs : List (List Char)),
    ((rs.map posCount)).sum ≤ posCount (joinSep sep rs)
  | [] => by simp [joinSep]
  | [r] => by simp [joinSep]
  | r :: r2 :: rs => by
    show _ ≤ posCount ((r ++ sep) ++ joinSep sep (r2 :: rs))
    have h1 := posCount_append_ge (r ++ sep) (joinSep sep (r2 :: rs))
    have h2 := posCount_append_ge r sep
    have h3 := sum_posCount_le_joinSep sep (r2 :: rs)
    simp only [List.map_cons, List.sum_cons] at h3 ⊢
    omega

theorem posCount_eq_zero_of_strip_nil {p : List Char} (h : pyStrip p = []) :
    posCount p = 0 := by
  obtain ⟨u, v, hl, hu, hv⟩ := exists_strip_decomp p
  rw [h] at hl
  rw [hl, List.append_nil, posCount_ws_append v hu, posCount_all_space hv]

/-- Occurrences of `=852` never straddle a chunk boundary of the `=LDR`
    split, so the chunks carry exactly the occurrences of the text. -/
theorem posCount_joinSep_ldr : ∀ (parts : List (List Char)),
    posCount (joinSep ldrTok parts) = ((parts.map posCount)).sum
  | [] => by simp [joinSep, posCount]
  | [p] => by simp [joinSep]
  | p :: p2 :: ps => by
    show posCount ((p ++ ldrTok) ++ joinSep ldrTok (p2 :: ps)) = _
    rw [List.append_assoc,
      posCount_append_eq p (ldrTok ++ joinSep ldrTok (p2 :: ps)) ?hb,
      posCount_ldr, posCount_joinSep_ldr (p2 :: ps)]
    · simp
    case hb =>
      intro x hx
      have hxe : '=' = x := by simpa [ldrTok] using hx
      rw [← hxe]
      refine ⟨?_, ?_, ?_⟩ <;> decide

theorem posCount_eq_sum_pySplit (l : List Char) :
    ((pySplit ldrTok l).map posCount).sum = posCount l := by
  conv_rhs => rw [← joinSep_pySplit ldrTok l (by decide)]
  rw [posCount_joinSep_ldr]

theorem sum_posCount_buildRecords (parts : List (List Char)) :
    ((buildRecords parts).map posCount).sum = ((parts.map posCount)).sum := by
  cases parts with
  | nil => rfl
  | cons p0 rest =>
    simp only [buildRecords, List.map_append, List.sum_append, List.map_cons, List.sum_cons]
    have h0 : ((if (pyStrip p0).isEmpty = true then ([] : List (List Char))
        else [pyStrip p0]).map posCount).sum = posCount p0 := by
      by_cases h : (pyStrip p0).isEmpty = true
      · rw [if_pos h]
        simp [(posCount_eq_zero_of_strip_nil (List.isEmpty_iff.1 h)).symm]
      · rw [if_neg h]
        simp [posCount_pyStrip]
    rw [h0]
    have htail : ∀ (ps : List (List Char)),
        (((ps.filterMap fun p => if (pyStrip p).isEmpty = true then none
          else some (ldrTok ++ p)).map posCount)).sum = ((ps.map posCount)).sum := by
      intro ps
      induction ps with
      | nil => rfl
      | cons q qs ih =>
        rw [List.filterMap_cons]
        by_cases hq : (pyStrip q).isEmpty = true
        · rw [if_pos hq]
          rw [ih]
          simp [posCount_eq_zero_of_strip_nil (List.isEmpty_iff.1 hq)]
        · rw [if_neg hq]
          simp only [List.map_cons, List.sum_cons, ih, posCount_ldr]
    rw [htail]

theorem find_missing_length (records : List (List Char)) :
    (find_missing_852_fields records).length = records.length := by
  rw [find_missing_852_fields]
  split <;> simp

/-- Inserting synthesized fields into a record only adds occurrences. -/
theorem posCount_le_add_missing (r : List Char) (m : List Nat) (tmpl : List Char) :
    posCount r ≤ posCount (add_missing_852_fields r m tmpl) := by
  by_cases hg : (m.isEmpty || tmpl.isEmpty) = true
  · simp only [add_missing_852_fields, if_pos hg]
    exact le_rfl
  · simp only [add_missing_852_fields, if_neg hg]
    generalize insertIdxAux (splitlines r) 0 (splitlines r).length = n
    have h1 : (((splitlines r).take n).map posCount).sum +
        (((splitlines r).drop n).map posCount).sum = posCount r := by
      rw [← sum_posCount_splitlines r]
      conv_rhs => rw [show splitlines r = (splitlines r).take n ++ (splitlines r).drop n from
        (List.take_append_drop n (splitlines r)).symm]
      rw [List.map_append, List.sum_append]
    have h2 := sum_posCount_le_joinSep nlSep
      ((splitlines r).take n ++ m.map (fun v => subP v tmpl) ++ (splitlines r).drop n)
    rw [List.map_append, List.map_append, List.sum_append, List.sum_append] at h2
    omega

theorem sum_posCount_zipWith (tmpl : List Char) :
    ∀ (rs : List (List Char)) (ms : List (List Nat)), rs.length ≤ ms.length →
      ((rs.map posCount)).sum ≤
        (((List.zipWith (fun r m => add_missing_852_fields r m tmpl) rs ms).map posCount)).sum
  | [], _, _ => by simp
  | r :: rs, [], h => by simp at h
  | r :: rs, mv :: ms, h => by
    simp only [List.zipWith_cons_cons, List.map_cons, List.sum_cons]
    have h1 := posCount_le_add_missing r mv tmpl
    have h2 := sum_posCount_zipWith tmpl rs ms (by simpa using h)
    omega

/-- The central monotonicity fact: processing never removes an `=852`. -/
theorem posCount_le_process (x : List Char) :
    posCount x ≤ posCount (process_marc_records x) := by
  rw [process_marc_records]
  by_cases he : (buildRecords (pySplit ldrTok (pyStrip x))).isEmpty = true
  · rw [if_pos he]
  · rw [if_neg he]
    cases htm : get_852_field_template (buildRecords (pySplit ldrTok (pyStrip x))) with
    | none => exact le_rfl
    | some tmpl =>
      calc posCount x = posCount (pyStrip x) := (posCount_pyStrip x).symm
        _ = ((pySplit ldrTok (pyStrip x)).map posCount).sum := (posCount_eq_sum_pySplit _).symm
        _ = ((buildRecords (pySplit ldrTok (pyStrip x))).map posCount).sum :=
          (sum_posCount_buildRecords _).symm
        _ ≤ _ := sum_posCount_zipWith tmpl _ _ (by rw [find_missing_length])
        _ ≤ _ := sum_posCount_le_joinSep nnSep _

/-! ## The insertion point -/

theorem startsWith_653_not_ldr {line : List Char} (h : startsWith tag653 line = true) :
    startsWith ldrTok line = false := by
  obtain ⟨t, rfl⟩ := (startsWith_iff _ _).1 h
  simp [startsWith, tag653, ldrTok]

/-- Behaviour of the scanning loop from line index 1 onwards: the first
    `=LDR` line wins, else one past the last `=653` line, else the carried
    default. -/
theorem insertIdxAux_ge_one (lines : List (List Char)) :
    ∀ (i idx : Nat), 1 ≤ i →
      insertIdxAux lines i idx =
        match firstIdx (fun line => startsWith ldrTok line) lines with
        | some d => i + d
        | none =>
          match last653 lines with
          | some k => i + k + 1
          | none => idx := by
  induction lines with
  | nil => intro i idx _; rfl
  | cons line rest ih =>
    intro i idx hi
    simp only [insertIdxAux]
    by_cases h653 : startsWith tag653 line = true
    · rw [if_pos h653, ih (i + 1) (i + 1) (by omega)]
      have hldr : startsWith ldrTok line = false := startsWith_653_not_ldr h653
      simp only [firstIdx, hldr, last653, Bool.false_eq_true, if_false]
      cases hf : firstIdx (fun l => startsWith ldrTok l) rest with
      | some d => simp [hf]; ring
      | none =>
        simp only [hf, Option.map_none']
        cases hl : last653 rest with
        | some k => simp; ring
        | none => simp [h653]
    · rw [if_neg h653]
      by_cases hldr2 : (startsWith ldrTok line && i != 0) = true
      · rw [if_pos hldr2]
        have hldr : startsWith ldrTok line = true := by
          rw [Bool.and_eq_true] at hldr2
          exact hldr2.1
        simp [firstIdx, hldr]
      · rw [if_neg hldr2]
        have hldr : startsWith ldrTok line = false := by
          cases hb : startsWith ldrTok line with
          | false => rfl
          | true =>
            exfalso
            apply hldr2
            rw [Bool.and_eq_true, hb]
            refine ⟨rfl, ?_⟩
            simp
            omega
        rw [ih (i + 1) idx (by omega)]
        simp only [firstIdx, hldr, last653, Bool.false_eq_true, if_false]
        cases hf : firstIdx (fun l => startsWith ldrTok l) rest with
        | some d => simp [hf]; ring
        | none =>
          simp only [hf, Option.map_none']
          cases hl : last653 rest with
          | some k => simp; ring
          | none => simp [h653]

/-- The insertion index computed by the code equals the specification's
    description of the insertion-point policy. -/
theorem insertIdx_eq_spec (lines : List (List Char)) :
    insertIdxAux lines 0 lines.length = specInsertIdx lines := by
  cases lines with
  | nil => rfl
  | cons line0 rest =>
    have hdrop : (line0 :: rest).drop 1 = rest := rfl
    simp only [insertIdxAux, specInsertIdx, hdrop]
    by_cases h653 : startsWith tag653 line0 = true
    · rw [if_pos h653, insertIdxAux_ge_one rest 1 1 le_rfl]
      cases hf : firstIdx (fun l => startsWith ldrTok l) rest with
      | some d => simp [hf]; ring
      | none =>
        simp only [hf, last653]
        cases hl : last653 rest with
        | some k => simp; ring
        | none => simp [h653]
    · rw [if_neg h653]
      have hcond : (startsWith ldrTok line0 && (0 : Nat) != 0) = false := by
        simp
      rw [hcond, if_neg (by simp), insertIdxAux_ge_one rest 1 (line0 :: rest).length le_rfl]
      cases hf : firstIdx (fun l => startsWith ldrTok l) rest with
      | some d => simp [hf]; ring
      | none =>
        simp only [hf, last653]
        cases hl : last653 rest with
        | some k => simp; ring
        | none => simp [h653]

/-! ## The checked variant agrees with the total one -/

theorem ruleAChecked_eq (records : List (List Char)) (S : List Nat) (i : Nat) :
    ruleAChecked records S i = some (ruleA records S i) := by
  rw [ruleAChecked, ruleA]
  by_cases h0 : get_p_values (records.getD i []) = []
  · rw [if_pos h0, if_pos h0]
    by_cases hi : i = 0
    · rw [if_pos hi, if_pos hi]
      by_cases hS : S.isEmpty = true
      · rw [if_pos hS, if_pos hS]
      · rw [if_neg hS, if_neg hS]
        cases S with
        | nil => simp at hS
        | cons v t => simp [pyHead?]
    · rw [if_neg hi, if_neg hi]
      by_cases hp : (batchP (records.take i)).isEmpty = true
      · rw [if_pos hp, if_pos hp]
        by_cases hS : S.isEmpty = true
        · rw [if_pos hS, if_pos hS]
        · rw [if_neg hS, if_neg hS]
          cases S with
          | nil => simp at hS
          | cons v t => simp [pyHead?]
      · rw [if_neg hp, if_neg hp]
        cases hb : batchP (records.take i) with
        | nil =>
          simp at hp
          exact absurd hb hp
        | cons q qs => simp [pyMax?, pyMaxD]
  · rw [if_neg h0, if_neg h0]

theorem mapM_option_eq_some {α β : Type} (l : List α) (f : α → Option β) (g : α → β)
    (h : ∀ a ∈ l, f a = some (g a)) : l.mapM f = some (l.map g) := by
  induction l with
  | nil => rfl
  | cons a t ih =>
    rw [List.mapM_cons, h a (by simp), ih fun x hx => h x (by simp [hx])]
    rfl

theorem find_missing_checked_eq (records : List (List Char)) :
    find_missing_852_checked records = some (find_missing_852_fields records) := by
  rw [find_missing_852_checked, find_missing_852_fields]
  by_cases h : batchP records = []
  · rw [if_pos h, if_pos h]
  · rw [if_neg h, if_neg h]
    exact mapM_option_eq_some _ _ _ fun i _ => by rw [ruleAChecked_eq]; rfl

/-! ## Template absence -/

theorem tryTemplateAt_eq_none {l : List Char} (h : startsWith pat852 l = false) :
    tryTemplateAt l = none := by
  simp [tryTemplateAt, h]

theorem searchTemplate_eq_none {r : List Char} (h : posCount r = 0) :
    searchTemplate r = none := by
  induction r with
  | nil => rfl
  | cons c rest ih =>
    rw [posCount] at h
    by_cases hs : startsWith pat852 (c :: rest) = true
    · rw [if_pos hs] at h; omega
    · rw [if_neg hs] at h
      have hs' : startsWith pat852 (c :: rest) = false := by
        cases hb : startsWith pat852 (c :: rest) with
        | false => rfl
        | true => exact absurd hb hs
      simp only [searchTemplate, tryTemplateAt_eq_none hs']
      exact ih (by omega)

theorem get_852_field_template_eq_none {records : List (List Char)}
    (h : ∀ r ∈ records, searchTemplate r = none) :
    get_852_field_template records = none := by
  induction records with
  | nil => rfl
  | cons r rs ih =>
    simp only [get_852_field_template, h r (by simp)]
    exact ih fun x hx => h x (by simp [hx])

theorem posCount_mem_pySplit_le {l p : List Char} (hp : p ∈ pySplit ldrTok l) :
    posCount p ≤ posCount l := by
  obtain ⟨u, v, huv⟩ := pySplit_mem_decomp hp
  have h1 := posCount_append_ge u (p ++ v)
  have h2 := posCount_append_ge p v
  have h3 := congrArg posCount (show u ++ (p ++ v) = l by rw [huv, List.append_assoc])
  omega

theorem posCount_le_of_mem_buildRecords {l r : List Char}
    (hr : r ∈ buildRecords (pySplit ldrTok l)) : posCount r ≤ posCount l := by
  cases hp : pySplit ldrTok l with
  | nil => rw [hp] at hr; simp [buildRecords] at hr
  | cons p0 rest =>
    rw [hp] at hr
    simp only [buildRecords] at hr
    rcases List.mem_append.1 hr with h1 | h2
    · by_cases hk : (pyStrip p0).isEmpty = true
      · rw [if_pos hk] at h1; simp at h1
      · rw [if_neg hk] at h1
        have he : r = pyStrip p0 := by simpa using h1
        subst he
        rw [posCount_pyStrip]
        exact posCount_mem_pySplit_le (by rw [hp]; simp)
    · obtain ⟨p, hpmem, hpr⟩ := List.mem_filterMap.1 h2
      by_cases hk : (pyStrip p).isEmpty = true
      · rw [if_pos hk] at hpr; simp at hpr
      · rw [if_neg hk] at hpr
        have he : ldrTok ++ p = r := by simpa using hpr
        rw [← he, posCount_ldr]
        exact posCount_mem_pySplit_le (by rw [hp]; simp [hpmem])

/-- Without any occurrence of `=852`, the search for a template fails and
    the core returns its input unchanged. -/
theorem process_eq_self_of_count852_zero {x : List Char} (h : count852 x = 0) :
    process_marc_records x = x := by
  rw [count852_eq_posCount] at h
  rw [process_marc_records]
  by_cases he : (buildRecords (pySplit ldrTok (pyStrip x))).isEmpty = true
  · rw [if_pos he]
  · rw [if_neg he]
    have htm : get_852_field_template (buildRecords (pySplit ldrTok (pyStrip x))) = none := by
      apply get_852_field_template_eq_none
      intro r hr
      apply searchTemplate_eq_none
      have h1 := posCount_le_of_mem_buildRecords hr
      have h2 := posCount_pyStrip x
      omega
    rw [htm]

/-! ## Small access lemmas -/

theorem zipWith_add_missing_nil (tmpl : List Char) : ∀ (rs : List (List Char)),
    List.zipWith (fun r m => add_missing_852_fields r m tmpl) rs (rs.map fun _ => []) = rs
  | [] => rfl
  | r :: rs => by
    simp only [List.map_cons, List.zipWith_cons_cons]
    rw [zipWith_add_missing_nil tmpl rs]
    simp [add_missing_852_fields]

theorem getD_range_map (n i : Nat) (f : Nat → List Nat) (h : i < n) :
    ((List.range n).map f).getD i [] = f i := by
  rw [List.getD_eq_getElem?_getD, List.getElem?_map, List.getElem?_range h]
  rfl

theorem getD_eq_getElem_of_lt {records : List (List Char)} {i : Nat}
    (h : i < records.length) : records.getD i [] = records[i] := by
  rw [List.getD_eq_getElem?_getD, List.getElem?_eq_getElem h]
  rfl

theorem get_p_values_sub_batchP {records : List (List Char)} {i : Nat}
    (h : i < records.length) {x : Nat}
    (hx : x ∈ get_p_values (records.getD i [])) : x ∈ batchP records := by
  rw [batchP, List.mem_flatten]
  refine ⟨get_p_values (records.getD i []),
    List.mem_map.2 ⟨records[i], List.getElem_mem h, ?_⟩, hx⟩
  rw [getD_eq_getElem_of_lt h]

theorem dropWhile_append_all {p : Char → Bool} {a : List Char} (b : List Char)
    (h : ∀ c ∈ a, p c = true) : (a ++ b).dropWhile p = b.dropWhile p := by
  induction a with
  | nil => rfl
  | cons c a ih =>
    rw [List.cons_append, List.dropWhile_cons, if_pos (h c (by simp))]
    exact ih fun x hx => h x (by simp [hx])

theorem findPAux_nil : ∀ f, findPAux f [] = []
  | 0 => rfl
  | _ + 1 => rfl

/-! ## Claims -/

/-- Claim C9: the core entry point is total and deterministic.  The checked
    variant returns `none` exactly where Python would raise (`all_p_values[0]`
    and `max(prev_records_p_values)`); it always returns `some` of the value
    of the total function, so `process_marc_records` never throws, and being
    a function it returns equal outputs on equal inputs. -/
theorem process_total_deterministic (x : List Char) :
    processChecked x = some (process_marc_records x) ∧
      ∀ y : List Char, x = y → process_marc_records x = process_marc_records y := by
  constructor
  · rw [processChecked, process_marc_records]
    by_cases he : (buildRecords (pySplit ldrTok (pyStrip x))).isEmpty = true
    · rw [if_pos he, if_pos he]
    · rw [if_neg he, if_neg he]
      cases htm : get_852_field_template (buildRecords (pySplit ldrTok (pyStrip x))) with
      | none => rfl
      | some tmpl =>
        rw [find_missing_checked_eq]
        rfl
  · intro y hxy
    rw [hxy]

/-- Claim C9 witness. -/
theorem process_total_deterministic_witness :
    processChecked (chars "=LDRa\n=852 $p1") =
        some (process_marc_records (chars "=LDRa\n=852 $p1")) ∧
      process_marc_records (chars "abc") = process_marc_records (chars "abc") :=
  ⟨(process_total_deterministic _).1, (process_total_deterministic (chars "abc")).2 _ rfl⟩

/-- Claim C8: the count of `=852` field headers never decreases under
    processing, equivalently the `added_fields` statistic is never
    negative. -/
theorem field_count_monotone (x : List Char) :
    count852 x ≤ count852 (process_marc_records x) ∧
      0 ≤ (get_processing_stats x (process_marc_records x)).addedFields := by
  have h := posCount_le_process x
  rw [← count852_eq_posCount, ← count852_eq_posCount] at h
  refine ⟨h, ?_⟩
  show (0 : Int) ≤ (count852 (process_marc_records x) : Int) - (count852 x : Int)
  omega

/-- Claim C6: with zero occurrences of the target field header `=852` the
    output equals the input exactly and `added_fields` is `0`. -/
theorem no_template_identity (x : List Char) (h : count852 x = 0) :
    process_marc_records x = x ∧
      (get_processing_stats x (process_marc_records x)).addedFields = 0 := by
  have hp := process_eq_self_of_count852_zero h
  refine ⟨hp, ?_⟩
  rw [hp]
  show (count852 x : Int) - (count852 x : Int) = 0
  omega

/-- Claim C6 witness. -/
theorem no_template_identity_witness :
    count852 (chars "hello world") = 0 ∧
      process_marc_records (chars "hello world") = chars "hello world" :=
  ⟨by decide, (no_template_identity _ (by decide)).1⟩

/-- Claim C10: Rule A assigns only to records without markers and Rule B
    only to records with markers, so no ordinal receives values from both
    rules in one pass; every Rule A assignment is a singleton; and the
    per-ordinal result is Rule A's entry followed by Rule B's. -/
theorem rules_mutually_exclusive (records : List (List Char)) (i : Nat) :
    (ruleA records (pySortedSet (batchP records)) i = [] ∨ ruleB records i = []) ∧
    (ruleA records (pySortedSet (batchP records)) i = [] ∨
      ∃ v, ruleA records (pySortedSet (batchP records)) i = [v]) ∧
    (batchP records ≠ [] → i < records.length →
      (find_missing_852_fields records).getD i [] =
        ruleA records (pySortedSet (batchP records)) i ++ ruleB records i) := by
  refine ⟨?_, ?_, ?_⟩
  · by_cases h0 : get_p_values (records.getD i []) = []
    · right
      rw [ruleB]
      split
      · rw [h0]
      · rfl
    · left
      rw [ruleA, if_neg h0]
  · rw [ruleA]
    by_cases h0 : get_p_values (records.getD i []) = []
    · rw [if_pos h0]
      by_cases hi : i = 0
      · rw [if_pos hi]
        by_cases hS : (pySortedSet (batchP records)).isEmpty = true
        · rw [if_pos hS]; left; rfl
        · rw [if_neg hS]; right; exact ⟨_, rfl⟩
      · rw [if_neg hi]
        by_cases hp : (batchP (records.take i)).isEmpty = true
        · rw [if_pos hp]
          by_cases hS : (pySortedSet (batchP records)).isEmpty = true
          · rw [if_pos hS]; left; rfl
          · rw [if_neg hS]; right; exact ⟨_, rfl⟩
        · rw [if_neg hp]; right; exact ⟨_, rfl⟩
    · rw [if_neg h0]; left; rfl
  · intro hne hi
    rw [find_missing_852_fields, if_neg hne, getD_range_map _ _ _ hi]

/-- Claim C10 witness. -/
theorem rules_mutually_exclusive_witness :
    batchP [chars "=852 $p1", chars "x", chars "=852 $p3"] ≠ [] ∧
      (find_missing_852_fields [chars "=852 $p1", chars "x", chars "=852 $p3"]).getD 1 [] =
        ruleA [chars "=852 $p1", chars "x", chars "=852 $p3"]
            (pySortedSet (batchP [chars "=852 $p1", chars "x", chars "=852 $p3"])) 1 ++
          ruleB [chars "=852 $p1", chars "x", chars "=852 $p3"] 1 :=
  ⟨by decide,
    (rules_mutually_exclusive [chars "=852 $p1", chars "x", chars "=852 $p3"] 1).2.2
      (by decide) (by decide)⟩

/-- Claim C5 (amended): if a template exists but no marker is extractable
    anywhere, gap detection assigns nothing and no field is inserted; the
    output is the split records rejoined with the canonical blank-line
    separator (which, as the counterexample shows, need not equal the
    input text itself). -/
theorem no_markers_no_assignments (x : List Char) (t : List Char)
    (htm : get_852_field_template (buildRecords (pySplit ldrTok (pyStrip x))) = some t)
    (hb : batchP (buildRecords (pySplit ldrTok (pyStrip x))) = []) :
    find_missing_852_fields (buildRecords (pySplit ldrTok (pyStrip x))) =
      (buildRecords (pySplit ldrTok (pyStrip x))).map (fun _ => []) ∧
    process_marc_records x =
      joinSep nnSep (buildRecords (pySplit ldrTok (pyStrip x))) := by
  have hfm : find_missing_852_fields (buildRecords (pySplit ldrTok (pyStrip x))) =
      (buildRecords (pySplit ldrTok (pyStrip x))).map (fun _ => []) := by
    rw [find_missing_852_fields, if_pos hb]
  refine ⟨hfm, ?_⟩
  have hne : (buildRecords (pySplit ldrTok (pyStrip x))).isEmpty = false := by
    cases hrec : buildRecords (pySplit ldrTok (pyStrip x)) with
    | nil => rw [hrec] at htm; simp [get_852_field_template] at htm
    | cons r rs => rfl
  rw [process_marc_records, if_neg (by simp [hne])]
  simp only [htm]
  rw [hfm, zipWith_add_missing_nil]

/-- Claim C5 witness. -/
theorem no_markers_no_assignments_witness :
    get_852_field_template (buildRecords (pySplit ldrTok (pyStrip (chars "=852 ab$bX")))) =
        some (chars "=852 ab$bX") ∧
      process_marc_records (chars "=852 ab$bX") =
        joinSep nnSep (buildRecords (pySplit ldrTok (pyStrip (chars "=852 ab$bX")))) :=
  ⟨by decide,
    (no_markers_no_assignments (chars "=852 ab$bX") (chars "=852 ab$bX")
      (by decide) (by decide)).2⟩

/-- Claim C5 counterexample: a batch with an `=852` field but no parseable
    marker on which the output text differs from the input text — the
    rejoin normalizes the record separator from two to four newlines. -/
theorem no_markers_output_differs :
    get_852_field_template
        (buildRecords (pySplit ldrTok (pyStrip (chars "=LDRa\n=852 ab$bX\n\n=LDRb")))) =
      some (chars "=852 ab$bX") ∧
    batchP (buildRecords (pySplit ldrTok (pyStrip (chars "=LDRa\n=852 ab$bX\n\n=LDRb")))) = [] ∧
    process_marc_records (chars "=LDRa\n=852 ab$bX\n\n=LDRb") ≠
      chars "=LDRa\n=852 ab$bX\n\n=LDRb" :=
  ⟨by decide, by decide, by decide⟩

/-- Claim C4 (amended): processing is idempotent exactly on its fixed
    points — whenever one pass returns its input unchanged (for instance
    when no template exists), a second pass adds nothing.  In general
    idempotence fails: each pass appends an extra blank-line pair at every
    record boundary (see the counterexample). -/
theorem process_idempotent_on_fixed (x : List Char)
    (h : process_marc_records x = x) :
    process_marc_records (process_marc_records x) = process_marc_records x := by
  rw [h]
  exact h

/-- Claim C4 witness. -/
theorem process_idempotent_on_fixed_witness :
    process_marc_records (chars "abc") = chars "abc" ∧
      process_marc_records (process_marc_records (chars "abc")) =
        process_marc_records (chars "abc") :=
  ⟨by decide, process_idempotent_on_fixed _ (by decide)⟩

/-- Claim C4 counterexample: on a clean two-record batch with no gaps the
    second pass still differs from the first, because the rejoined output
    keeps each record's trailing blank line and adds a fresh `\n\n`
    separator, growing the gap between records on every pass. -/
theorem process_not_idempotent :
    process_marc_records (process_marc_records (chars "=LDRa\n=852 $p1\n\n=LDRb\n=852 $p2")) ≠
      process_marc_records (chars "=LDRa\n=852 $p1\n\n=LDRb\n=852 $p2") := by
  decide

/-- Claim C1: Rule A assigns a marker-less record at ordinal 0 the smallest
    marker value of the batch (when one exists); at ordinal `i > 0` it
    assigns one more than the maximum marker among records strictly before
    `i`, falling back to the smallest global value when no earlier record
    has markers.  (`pyMinD`/`pyMaxD` are the least/greatest elements, by
    `pyMinD_le`, `pyMinD_mem`, `le_pyMaxD`, `pyMaxD_mem`.) -/
theorem ruleA_gap_values (records : List (List Char)) (i : Nat)
    (hi : i < records.length)
    (hempty : get_p_values (records.getD i []) = [])
    (hne : batchP records ≠ []) :
    (find_missing_852_fields records).getD i [] =
      if i = 0 then [pyMinD (batchP records)]
      else if batchP (records.take i) ≠ [] then [pyMaxD (batchP (records.take i)) + 1]
      else [pyMinD (batchP records)] := by
  rw [find_missing_852_fields, if_neg hne, getD_range_map _ _ _ hi]
  have hrB : ruleB records i = [] := by
    rw [ruleB]
    split
    · rw [hempty]
    · rfl
  rw [hrB, List.append_nil, ruleA, if_pos hempty]
  obtain ⟨tS, hS⟩ := pySortedSet_head (batchP records) hne
  have hSne : (pySortedSet (batchP records)).isEmpty = false := by rw [hS]; rfl
  have hShead : (pySortedSet (batchP records)).headD 0 = pyMinD (batchP records) := by
    rw [hS]; rfl
  by_cases hi0 : i = 0
  · rw [if_pos hi0, if_neg (by simp [hSne]), hShead, if_pos hi0]
  · rw [if_neg hi0, if_neg hi0]
    by_cases hprev : (batchP (records.take i)).isEmpty = true
    · have hpe : batchP (records.take i) = [] := List.isEmpty_iff.1 hprev
      rw [if_pos hprev, if_neg (by simp [hSne]), hShead, if_neg (by simp [hpe])]
    · have hprev' : batchP (records.take i) ≠ [] := by
        intro hc
        rw [hc] at hprev
        exact hprev rfl
      rw [if_neg hprev, if_pos hprev']

/-- Claim C1 witness. -/
theorem ruleA_gap_values_witness :
    get_p_values (([chars "=LDRa", chars "=LDRb\n=852 $p5"]).getD 0 []) = [] ∧
      (find_missing_852_fields [chars "=LDRa", chars "=LDRb\n=852 $p5"]).getD 0 [] = [5] := by
  refine ⟨by decide, ?_⟩
  have h := ruleA_gap_values [chars "=LDRa", chars "=LDRb\n=852 $p5"] 0
    (by decide) (by decide) (by decide)
  rw [h]
  decide

/-- Claim C2: for a consecutive pair whose records both have markers, with
    `last` the maximum of record `i` and `first` the minimum of record
    `i + 1`, a gap `first − last > 1` assigns to record `i` exactly the
    integers strictly between `last` and `first`, concatenated after any
    Rule A values of that ordinal (of which there are none, by C10). -/
theorem ruleB_gap_fill (records : List (List Char)) (i : Nat) (p q : Nat) (ps qs : List Nat)
    (hi : i + 1 < records.length)
    (h1 : get_p_values (records.getD i []) = p :: ps)
    (h2 : get_p_values (records.getD (i + 1) []) = q :: qs)
    (hgap : pyMaxD (p :: ps) + 1 < pyMinD (q :: qs)) :
    (find_missing_852_fields records).getD i [] =
      ruleA records (pySortedSet (batchP records)) i ++
        List.range' (pyMaxD (p :: ps) + 1) (pyMinD (q :: qs) - (pyMaxD (p :: ps) + 1)) ∧
    ruleA records (pySortedSet (batchP records)) i = [] ∧
    ∀ v, (v ∈ List.range' (pyMaxD (p :: ps) + 1) (pyMinD (q :: qs) - (pyMaxD (p :: ps) + 1)) ↔
      pyMaxD (p :: ps) < v ∧ v < pyMinD (q :: qs)) := by
  have hne : batchP records ≠ [] := by
    intro hc
    have hpmem : p ∈ batchP records :=
      @get_p_values_sub_batchP records i (by omega) p
        (by rw [h1]; exact List.mem_cons_self p ps)
    rw [hc] at hpmem
    simp at hpmem
  have hrB : ruleB records i =
      List.range' (pyMaxD (p :: ps) + 1) (pyMinD (q :: qs) - (pyMaxD (p :: ps) + 1)) := by
    rw [ruleB, if_pos hi, h1, h2]
  have hrA : ruleA records (pySortedSet (batchP records)) i = [] := by
    rw [ruleA, if_neg (by rw [h1]; simp)]
  refine ⟨?_, hrA, ?_⟩
  · rw [find_missing_852_fields, if_neg hne, getD_range_map _ _ _ (by omega), hrB]
  · intro v
    rw [List.mem_range'_1]
    omega

/-- Claim C2 witness: the specification's own example, markers `[1, 2]`
    followed by `[5, 6]`, assigns `[3, 4]` to the earlier record. -/
theorem ruleB_gap_fill_witness :
    (find_missing_852_fields
      [chars "=852 $p1\n=852 $p2", chars "=852 $p5\n=852 $p6"]).getD 0 [] = [3, 4] := by
  have h := ruleB_gap_fill [chars "=852 $p1\n=852 $p2", chars "=852 $p5\n=852 $p6"]
    0 1 5 [2] [6] (by decide) (by decide) (by decide) (by decide)
  rw [h.1, h.2.1]
  decide

/-- Claim C7: when values are to be inserted and a template exists, all
    synthesized fields appear contiguously, in order, at the single index
    described by the specification: before the first `=LDR` line at an
    index other than 0 if one exists, else immediately after the last
    `=653` line, else at end-of-record (`specInsertIdx`, shown equal to
    the code's scan by `insertIdx_eq_spec`). -/
theorem insertion_point_policy (record : List Char) (missing : List Nat) (tmpl : List Char)
    (hm : missing ≠ []) (ht : tmpl ≠ []) :
    add_missing_852_fields record missing tmpl =
      joinSep nlSep ((splitlines record).take (specInsertIdx (splitlines record)) ++
        missing.map (fun v => subP v tmpl) ++
        (splitlines record).drop (specInsertIdx (splitlines record))) := by
  have hg : (missing.isEmpty || tmpl.isEmpty) = false := by
    cases missing with
    | nil => exact absurd rfl hm
    | cons m ms =>
      cases tmpl with
      | nil => exact absurd rfl ht
      | cons t ts => rfl
  rw [add_missing_852_fields, if_neg (by simp [hg]), insertIdx_eq_spec]

/-- Claim C7 witness: subject lines followed by a trailing line — the
    synthesized field lands right after the last `=653` line. -/
theorem insertion_point_policy_witness :
    ([7] ≠ ([] : List Nat)) ∧
    add_missing_852_fields (chars "=LDRx\n=653 a\n=653 b\n=999 t") [7] (chars "=852 $p1") =
      joinSep nlSep ((splitlines (chars "=LDRx\n=653 a\n=653 b\n=999 t")).take
          (specInsertIdx (splitlines (chars "=LDRx\n=653 a\n=653 b\n=999 t"))) ++
        ([7].map fun v => subP v (chars "=852 $p1")) ++
        (splitlines (chars "=LDRx\n=653 a\n=653 b\n=999 t")).drop
          (specInsertIdx (splitlines (chars "=LDRx\n=653 a\n=653 b\n=999 t")))) :=
  ⟨by decide, insertion_point_policy _ _ _ (by decide) (by decide)⟩

/-- Claim C3 counterexample: extraction does not tolerate an intervening
    sub-field — a `$b` sub-field before `$p700` makes the value
    unextractable, because `[^$]*` cannot cross the `$` delimiter — and it
    does cross into a different field's header when no `$` intervenes: the
    `$p42` sitting in the `=100` field is matched against the `=852`
    header of the previous line. -/
theorem extraction_claim_fails :
    get_p_values (chars "=852 ab$bX$p700") = [] ∧
    get_p_values (chars "=852 \n=100 1#$p42") = [42] :=
  ⟨by decide, by decide⟩

/-- Claim C3 (amended): extraction tolerates arbitrary intervening
    characters other than the sub-field delimiter `$` — including newlines
    and other fields' headers — between the field start and the `$p`
    sub-field; an intervening sub-field blocks extraction, and the match
    may cross line boundaries into a different field when no `$`
    intervenes (concrete conjuncts). -/
theorem extraction_dollar_free_tolerance :
    (∀ filler : List Char, (∀ c ∈ filler, c ≠ '$') →
      get_p_values ('=' :: '8' :: '5' :: '2' :: ' ' :: (filler ++ ['$', 'p', '7', '0', '0'])) =
        [700]) ∧
    get_p_values (chars "=852 ab$bX$p700\n=852 $p9") = [9] ∧
    get_p_values (chars "=852 \t=999 x$p31") = [31] := by
  refine ⟨?_, by decide, by decide⟩
  intro filler hf
  have hall : ∀ c ∈ filler, (fun x => x != '$') c = true := by
    intro c hc
    simp only [bne_iff_ne, ne_eq]
    exact hf c hc
  have hdrop : (filler ++ ['$', 'p', '7', '0', '0']).dropWhile (fun x => x != '$') =
      '$' :: 'p' :: ['7', '0', '0'] := by
    rw [dropWhile_append_all _ hall]
    rfl
  have htry : tryPAt ('=' :: '8' :: '5' :: '2' :: ' ' :: (filler ++ ['$', 'p', '7', '0', '0'])) =
      some (700, []) := by
    rw [tryPAt, if_pos (by simp [startsWith, pat852])]
    simp only [List.drop_succ_cons, List.drop_zero]
    rw [if_pos (by decide : isSpace ' ' = true), hdrop]
    decide
  have hlen : ('=' :: '8' :: '5' :: '2' :: ' ' :: (filler ++ ['$', 'p', '7', '0', '0'])).length
      = filler.length + 9 + 1 := by
    simp [List.length_append]
  rw [get_p_values, hlen]
  simp only [findPAux, htry, findPAux_nil]
  decide

/-- Claim C3 witness for the amended tolerance statement. -/
theorem extraction_dollar_free_tolerance_witness :
    (∀ c ∈ chars "xy=LDR\n=653 q", c ≠ '$') ∧
    get_p_values ('=' :: '8' :: '5' :: '2' :: ' ' ::
      (chars "xy=LDR\n=653 q" ++ ['$', 'p', '7', '0', '0'])) = [700] :=
  ⟨by decide, extraction_dollar_free_tolerance.1 _ (by decide)⟩

end Marc
